import Mathlib

/-!
Verification of the milestone1-agent repository against its specification.

The streaming client, payload construction, history compaction, code
extraction and title generation are embedded from `src/chatbot/app.jsx`.
The backend pipeline controller and quality gate (`agent/orchestrator.py`,
`agent/qa.py`) are not part of the source tree; those are modelled from the
spec and from `src/PROJECT_CONTEXT.md`, as marked on each definition.
-/

namespace Milestone1

/-! ## Streaming client (`streamChat`, `chatbot/app.jsx` lines 156-194)

The client reads SSE `data:` lines, JSON-parses each one and dispatches on
the `type` field.  A run is abstracted to what the code observes: either
the HTTP response was not ok, or a sequence of parsed `data:` payloads was
delivered and then the transport ended, was aborted, or threw. -/

/-- A parsed SSE `data:` JSON object as the client reads it: the `type`
string and the `text` / `error` fields, with `""` standing for a missing
(falsy) field. -/
structure SSEData where
  type : String
  text : String
  errMsg : String
deriving DecidableEq, Repr

/-- A callback invocation made by `streamChat`: `onChunk`, `onThinking`,
`onStatus`, `onDone` or `onError`. -/
inductive Emit where
  | chunk (t : String)
  | thinking (t : String)
  | status (t : String)
  | done
  | error (msg : String)
deriving DecidableEq, Repr

/-- Terminal callbacks are `onDone` and `onError`. -/
def Emit.isTerminal : Emit → Bool
  | .done => true
  | .error _ => true
  | _ => false

/-- Result of dispatching one parsed payload: a non-terminal callback, no
callback at all, or a terminal callback that makes `streamChat` return. -/
inductive StepResult where
  | emit (e : Emit)
  | skip
  | terminal (e : Emit)
deriving DecidableEq, Repr

/-- One dispatch of a parsed payload, mirroring the if/else chain at
`chatbot/app.jsx` lines 180-184.  `hasOnStatus` and `hasOnThinking` model
whether the optional `onStatus` / `onThinking` callbacks were supplied. -/
def handleData (hasOnStatus hasOnThinking : Bool) (d : SSEData) : StepResult :=
  if d.type = "chunk" ∧ d.text ≠ "" then .emit (.chunk d.text)
  else if d.type = "thinking" ∧ d.text ≠ "" ∧ hasOnThinking = true then .emit (.thinking d.text)
  else if d.type = "status" ∧ d.text ≠ "" ∧ hasOnStatus = true then .emit (.status d.text)
  else if d.type = "done" then .terminal .done
  else if d.type = "error" then
    .terminal (.error (if d.errMsg = "" then "Unknown error" else d.errMsg))
  else .skip

/-- How the run ends when no terminal payload was dispatched first: the
reader reports end of stream (`onDone()` after the while loop), the awaited
fetch/read throws an `AbortError` (the catch calls `onDone()`), or it
throws some other error (the catch calls `onError`). -/
inductive Ending where
  | transportEnd
  | aborted
  | failed (msg : String)
deriving DecidableEq, Repr

/-- Process the delivered `data:` lines in order.  `none` stands for a line
whose `JSON.parse` threw (swallowed by the empty catch).  A terminal
dispatch returns at once; otherwise the `Ending` decides the last event,
mirroring `streamChat`'s loop, its fall-through `onDone()`, and its catch
block (`err.message || 'Network error'`). -/
def processLines (hasOnStatus hasOnThinking : Bool) :
    List (Option SSEData) → Ending → List Emit
  | [], .transportEnd => [.done]
  | [], .aborted => [.done]
  | [], .failed m => [.error (if m = "" then "Network error" else m)]
  | none :: rest, ending => processLines hasOnStatus hasOnThinking rest ending
  | some d :: rest, ending =>
    match handleData hasOnStatus hasOnThinking d with
    | .emit e => e :: processLines hasOnStatus hasOnThinking rest ending
    | .skip => processLines hasOnStatus hasOnThinking rest ending
    | .terminal e => [e]

/-- One run of `streamChat`: either the response was not ok (the code calls
`onError` with the body text) or payloads were delivered as above. -/
inductive StreamInput where
  | httpError (msg : String)
  | events (lines : List (Option SSEData)) (ending : Ending)

/-- The full sequence of callbacks one invocation of `streamChat` makes. -/
def streamChat (hasOnStatus hasOnThinking : Bool) : StreamInput → List Emit
  | .httpError m => [.error m]
  | .events lines ending => processLines hasOnStatus hasOnThinking lines ending

theorem handleData_emit_nonterminal (hs ht : Bool) (d : SSEData) (e : Emit)
    (h : handleData hs ht d = .emit e) : e.isTerminal = false := by
  unfold handleData at h
  split at h
  · cases h; rfl
  · split at h
    · cases h; rfl
    · split at h
      · cases h; rfl
      · split at h
        · cases h
        · split at h
          · cases h
          · cases h

theorem handleData_terminal_cases (hs ht : Bool) (d : SSEData) (e : Emit)
    (h : handleData hs ht d = .terminal e) :
    (d.type = "done" ∧ e = .done) ∨ d.type = "error" := by
  unfold handleData at h
  split at h
  · cases h
  · split at h
    · cases h
    · split at h
      · cases h
      · split at h
        · rename_i hdone
          cases h
          exact Or.inl ⟨hdone, rfl⟩
        · split at h
          · rename_i herr
            exact Or.inr herr
          · cases h

theorem handleData_terminal_isTerminal (hs ht : Bool) (d : SSEData) (e : Emit)
    (h : handleData hs ht d = .terminal e) : e.isTerminal = true := by
  unfold handleData at h
  split at h
  · cases h
  · split at h
    · cases h
    · split at h
      · cases h
      · split at h
        · cases h; rfl
        · split at h
          · cases h; rfl
          · cases h

theorem processLines_shape (hs ht : Bool) (lines : List (Option SSEData)) (ending : Ending) :
    ∃ pre e, processLines hs ht lines ending = pre ++ [e] ∧
      e.isTerminal = true ∧ ∀ x ∈ pre, x.isTerminal = false := by
  induction lines with
  | nil =>
    cases ending with
    | transportEnd => exact ⟨[], .done, rfl, rfl, by simp⟩
    | aborted => exact ⟨[], .done, rfl, rfl, by simp⟩
    | failed m => exact ⟨[], .error (if m = "" then "Network error" else m), rfl, rfl, by simp⟩
  | cons o rest ih =>
    cases o with
    | none => simpa [processLines] using ih
    | some d =>
      rcases hh : handleData hs ht d with e | _ | e
      · obtain ⟨pre, t, heq, hterm, hpre⟩ := ih
        refine ⟨e :: pre, t, ?_, hterm, ?_⟩
        · simp [processLines, hh, heq]
        · intro x hx
          rcases List.mem_cons.mp hx with hx | hx
          · subst hx; exact handleData_emit_nonterminal hs ht d x hh
          · exact hpre x hx
      · simpa [processLines, hh] using ih
      · refine ⟨[], e, ?_, handleData_terminal_isTerminal hs ht d e hh, by simp⟩
        simp [processLines, hh]

/-- C1: every invocation of `streamChat` produces exactly one terminal
callback (`onDone` or `onError`), it is the last callback made, and no
callback follows it — including the transport-end case, which yields one
`onDone`. -/
theorem streamChat_exactly_one_terminal_last (hs ht : Bool) (inp : StreamInput) :
    ∃ pre e, streamChat hs ht inp = pre ++ [e] ∧
      e.isTerminal = true ∧ ∀ x ∈ pre, x.isTerminal = false := by
  cases inp with
  | httpError m => exact ⟨[], .error m, rfl, rfl, by simp⟩
  | events lines ending => exact processLines_shape hs ht lines ending

/-- C3: when the run is aborted by the consumer (the fetch/read raises
`AbortError`) and the server had sent no `error`-typed payload, the stream
closes with a single final `onDone`; `onError` is never invoked and no
chunk/status/thinking callback fires after the terminal callback. -/
theorem streamChat_abort_clean_done (hs ht : Bool) (lines : List (Option SSEData))
    (h : ∀ d ∈ lines.filterMap id, d.type ≠ "error") :
    ∃ pre, streamChat hs ht (.events lines .aborted) = pre ++ [.done] ∧
      ∀ x ∈ pre, x.isTerminal = false := by
  induction lines with
  | nil => exact ⟨[], rfl, by simp⟩
  | cons o rest ih =>
    have hrest : ∀ d ∈ rest.filterMap id, d.type ≠ "error" := by
      intro d hd
      exact h d (by cases o <;> simp [List.filterMap_cons] at * <;> tauto)
    cases o with
    | none => simpa [streamChat, processLines] using ih hrest
    | some d =>
      have hd : d.type ≠ "error" := h d (by simp [List.filterMap_cons])
      rcases hh : handleData hs ht d with e | _ | e
      · obtain ⟨pre, heq, hpre⟩ := ih hrest
        refine ⟨e :: pre, ?_, ?_⟩
        · simp only [streamChat, processLines, hh]
          simp only [streamChat] at heq
          simp [heq]
        · intro x hx
          rcases List.mem_cons.mp hx with hx | hx
          · subst hx; exact handleData_emit_nonterminal hs ht d x hh
          · exact hpre x hx
      · simp only [streamChat, processLines, hh]
        simpa [streamChat] using ih hrest
      · rcases handleData_terminal_cases hs ht d e hh with ⟨_, he⟩ | he
        · subst he
          exact ⟨[], by simp [streamChat, processLines, hh], by simp⟩
        · exact absurd he hd

theorem streamChat_abort_clean_done_witness :
    ∃ pre, streamChat true true
        (.events [some ⟨"status", "Generating React code...", ""⟩,
                  some ⟨"thinking", "Designing a card...", ""⟩,
                  some ⟨"chunk", "Here is", ""⟩] .aborted) = pre ++ [.done] ∧
      ∀ x ∈ pre, x.isTerminal = false :=
  streamChat_abort_clean_done true true _ (by decide)

/-- C5 counterexample: the wire `type` strings the client acts on are not
the spec's five names — a `chunk`-typed payload is dispatched although
`"chunk"` is not among `status`/`reasoning`/`content`/`done`/`error`, and a
`content`-typed payload is ignored entirely. -/
theorem handleData_spec_type_strings_counterexample :
    handleData true true ⟨"chunk", "Hello", ""⟩ ≠ .skip ∧
      "chunk" ∉ (["status", "reasoning", "content", "done", "error"] : List String) ∧
      handleData true true ⟨"content", "Hello", ""⟩ = .skip ∧
      handleData true true ⟨"reasoning", "Hmm", ""⟩ = .skip := by
  decide

/-- C5 amended: every payload the consumer acts on has `type` among the
five wire strings `chunk`, `thinking`, `status`, `done`, `error`; `chunk`
(the final-content channel) is dispatched to the final-transcript handler
`onChunk`, `thinking` (the intermediate-reasoning channel) to the
intermediate-output handler `onThinking`, `status` to `onStatus`, `done`
to the terminal `onDone`, and `error` to the terminal `onError` (with the
`parsed.error || 'Unknown error'` fallback). -/
theorem handleData_wire_types_amended (d : SSEData) :
    (handleData true true d ≠ .skip →
      d.type ∈ (["chunk", "thinking", "status", "done", "error"] : List String)) ∧
    (d.type = "chunk" → d.text ≠ "" → handleData true true d = .emit (.chunk d.text)) ∧
    (d.type = "thinking" → d.text ≠ "" → handleData true true d = .emit (.thinking d.text)) ∧
    (d.type = "status" → d.text ≠ "" → handleData true true d = .emit (.status d.text)) ∧
    (d.type = "done" → handleData true true d = .terminal .done) ∧
    (d.type = "error" → handleData true true d =
      .terminal (.error (if d.errMsg = "" then "Unknown error" else d.errMsg))) := by
  refine ⟨?_, ?_, ?_, ?_, ?_, ?_⟩
  · intro hne
    by_contra hmem
    simp only [List.mem_cons, List.not_mem_nil, or_false, not_or] at hmem
    obtain ⟨h1, h2, h3, h4, h5⟩ := hmem
    exact hne (by simp [handleData, h1, h2, h3, h4, h5])
  · intro h1 h2; simp [handleData, h1, h2]
  · intro h1 h2; simp [handleData, h1, h2]
  · intro h1 h2; simp [handleData, h1, h2]
  · intro h1; simp [handleData, h1]
  · intro h1; simp [handleData, h1]

theorem handleData_wire_types_amended_witness :
    handleData true true ⟨"thinking", "Searching the catalog", ""⟩ =
      .emit (.thinking "Searching the catalog") :=
  (handleData_wire_types_amended ⟨"thinking", "Searching the catalog", ""⟩).2.2.1
    (by decide) (by decide)

/-! ## Message payload construction (`sendMessage`, `chatbot/app.jsx` lines 1189-1246)

`sendMessage` enriches the user text with `CODE_RULE` and, when files are
pinned in the code panel, wraps it with the pinned code and a mandatory-base
instruction; `streamChat` then posts `{ message, history, intent, library }`
with the clean user text as `intent`. -/

/-- A code-panel file, as far as `sendMessage` consults it. -/
structure CodeFile where
  label : String
  code : String
  pinned : Bool
deriving DecidableEq, Repr

/-- The `CODE_RULE` constant appended to every backend message
(`chatbot/app.jsx` line 1189). -/
def CODE_RULE : String :=
  " Output the complete updated React component in a single jsx code block. Must end with root.render(React.createElement(ComponentName)). Keep it compact, under 80 lines. Minimal explanation."

/-- JavaScript `Array.prototype.join` with a separator. -/
def joinSep (sep : String) : List String → String
  | [] => ""
  | [a] => a
  | a :: b :: rest => a ++ sep ++ joinSep sep (b :: rest)

/-- The comma-joined pinned-file labels (`pinned.map(f => f.label).join(', ')`). -/
def pinnedNames (pinned : List CodeFile) : String :=
  joinSep ", " (pinned.map (fun f => f.label))

/-- The pinned-code context block, one fenced `jsx` block per pinned file. -/
def pinnedCtx (pinned : List CodeFile) : String :=
  joinSep "\n\n" (pinned.map (fun f => "[Pinned: " ++ f.label ++ "]\n```jsx\n" ++ f.code ++ "\n```"))

/-- Opening of the pinned-context instruction, up to the file names. -/
def PINNED_HEADER : String :=
  "IMPORTANT: The user has pinned the following code file(s) as context: "

/-- The mandatory-base instruction between the file names and the pinned code. -/
def PINNED_INSTRUCTION : String :=
  ". You MUST use this pinned code as the base component to modify. Do NOT use any other component from conversation history — work ONLY on the pinned code below.\n\n"

/-- Separator between the pinned context and the user request. -/
def USER_REQUEST_SEP : String := "\n\nUser request: "

/-- The backend message built by `sendMessage` (lines 1194-1201): user text
plus `CODE_RULE`, wrapped with the pinned instruction and pinned code when
at least one code file is pinned. -/
def buildBackendText (text : String) (codeFiles : List CodeFile) : String :=
  let pinned := codeFiles.filter (fun f => f.pinned)
  let backendText := text ++ CODE_RULE
  if pinned.length > 0 then
    PINNED_HEADER ++ pinnedNames pinned ++ PINNED_INSTRUCTION ++ pinnedCtx pinned ++
      USER_REQUEST_SEP ++ backendText
  else backendText

theorem joinSep_cons_ne_nil (sep a : String) (rest : List String) (h : rest ≠ []) :
    joinSep sep (a :: rest) = a ++ sep ++ joinSep sep rest := by
  cases rest with
  | nil => exact absurd rfl h
  | cons b tl => rfl

theorem joinSep_mem_split (sep : String) (g : CodeFile → String) :
    ∀ (l : List CodeFile) (f : CodeFile), f ∈ l →
      ∃ pre post, joinSep sep (l.map g) = pre ++ g f ++ post := by
  intro l
  induction l with
  | nil => intro f hf; cases hf
  | cons a tl ih =>
    intro f hf
    rcases List.mem_cons.mp hf with hf | hf
    · subst hf
      cases tl with
      | nil => exact ⟨"", "", by simp [joinSep]⟩
      | cons b tl2 =>
        refine ⟨"", sep ++ joinSep sep (List.map g (b :: tl2)), ?_⟩
        rw [List.map_cons, joinSep_cons_ne_nil _ _ _ (by simp)]
        simp [String.append_assoc]
    · obtain ⟨pre, post, hsp⟩ := ih f hf
      cases tl with
      | nil => cases hf
      | cons b tl2 =>
        refine ⟨g a ++ sep ++ pre, post, ?_⟩
        rw [List.map_cons, joinSep_cons_ne_nil _ _ _ (by simp), hsp]
        simp [String.append_assoc]

/-- C4: pinned-artifact precedence in the payload.  With at least one
pinned file, the backend message contains the full code of every pinned
file and has the fixed mandatory-base instruction, the names, and the
pinned code all placed before the `User request:` section holding the user
text; with no pinned files the user text is sent with only `CODE_RULE`
appended and no pinned context. -/
theorem buildBackendText_pinned_precedence (text : String) (codeFiles : List CodeFile) :
    (codeFiles.filter (fun f => f.pinned) ≠ [] →
      (∀ f ∈ codeFiles.filter (fun f => f.pinned),
        ∃ pre post, buildBackendText text codeFiles = pre ++ f.code ++ post) ∧
      buildBackendText text codeFiles =
        PINNED_HEADER ++ pinnedNames (codeFiles.filter (fun f => f.pinned)) ++
          PINNED_INSTRUCTION ++ pinnedCtx (codeFiles.filter (fun f => f.pinned)) ++
          USER_REQUEST_SEP ++ (text ++ CODE_RULE)) ∧
    (codeFiles.filter (fun f => f.pinned) = [] →
      buildBackendText text codeFiles = text ++ CODE_RULE) := by
  constructor
  · intro hne
    have hlen : (codeFiles.filter (fun f => f.pinned)).length > 0 :=
      List.length_pos.mpr hne
    have heq : buildBackendText text codeFiles =
        PINNED_HEADER ++ pinnedNames (codeFiles.filter (fun f => f.pinned)) ++
          PINNED_INSTRUCTION ++ pinnedCtx (codeFiles.filter (fun f => f.pinned)) ++
          USER_REQUEST_SEP ++ (text ++ CODE_RULE) := by
      simp [buildBackendText, hlen]
    refine ⟨?_, heq⟩
    intro f hf
    obtain ⟨pre, post, hsp⟩ :=
      joinSep_mem_split "\n\n"
        (fun f => "[Pinned: " ++ f.label ++ "]\n```jsx\n" ++ f.code ++ "\n```")
        (codeFiles.filter (fun f => f.pinned)) f hf
    refine ⟨PINNED_HEADER ++ pinnedNames (codeFiles.filter (fun f => f.pinned)) ++
      PINNED_INSTRUCTION ++ (pre ++ ("[Pinned: " ++ f.label ++ "]\n```jsx\n")),
      "\n```" ++ post ++ USER_REQUEST_SEP ++ (text ++ CODE_RULE), ?_⟩
    rw [heq]
    simp only [pinnedCtx, hsp]
    simp [String.append_assoc]
  · intro hnil
    simp [buildBackendText, hnil]

theorem buildBackendText_pinned_precedence_witness :
    (buildBackendText "make it blue"
        [⟨"Card", "function Card() 1", true⟩, ⟨"Nav", "function Nav() 2", false⟩] =
      PINNED_HEADER ++ "Card" ++ PINNED_INSTRUCTION ++
        "[Pinned: Card]\n```jsx\nfunction Card() 1\n```" ++
        USER_REQUEST_SEP ++ ("make it blue" ++ CODE_RULE)) ∧
    (buildBackendText "hello" [⟨"Nav", "function Nav() 2", false⟩] = "hello" ++ CODE_RULE) := by
  constructor
  · exact (buildBackendText_pinned_precedence "make it blue" _).1 (by simp) |>.2
  · exact (buildBackendText_pinned_precedence "hello" _).2 (by simp)

/-! ## Request payload and the intent override (C7) -/

/-- One history entry posted to the backend: role plus content. -/
structure HistMsg where
  role : String
  content : String
deriving DecidableEq, Repr

/-- The JSON payload `streamChat` posts to `/api/chat/stream`. -/
structure ChatPayload where
  message : String
  history : List HistMsg
  intent : Option String
  library : Option String
deriving DecidableEq, Repr

/-- The payload built at `chatbot/app.jsx` lines 158-160: `intent` and
`library` are attached only when truthy (nonempty). -/
def buildPayload (message : String) (history : List HistMsg)
    (intent library : String) : ChatPayload :=
  { message := message
    history := history
    intent := if intent = "" then none else some intent
    library := if library = "" then none else some library }

/-- The payload produced by one `sendMessage` submit (line 1246): the
`message` is the enriched backend text, the `intent` is the clean user
text, the `library` is the selected library. -/
def sendMessagePayload (text : String) (codeFiles : List CodeFile)
    (history : List HistMsg) (library : String) : ChatPayload :=
  buildPayload (buildBackendText text codeFiles) history text library

/-- Modelled from the spec: the backend Classifier step of
`agent/orchestrator.py`, which is not under `src/`.  "If the caller already
supplies an intent ... the Classifier step is bypassed entirely and the
supplied intent is trusted without re-verification."  Returns the resolved
intent and whether the classifier was invoked. -/
def resolveIntent (supplied : Option String) (classifierOutput : String) : String × Bool :=
  match supplied with
  | some i => (i, false)
  | none => (classifierOutput, true)

set_option maxRecDepth 4096 in
theorem CODE_RULE_length_pos : 0 < CODE_RULE.length := by decide

theorem text_ne_buildBackendText (text : String) (codeFiles : List CodeFile) :
    text.length < (buildBackendText text codeFiles).length := by
  simp only [buildBackendText]
  split
  · simp only [String.length_append]
    have := CODE_RULE_length_pos
    omega
  · simp only [String.length_append]
    have := CODE_RULE_length_pos
    omega

/-- C7: for every submitted request with nonempty user text, the payload
carries the clean user text as `intent`, unchanged — not the enriched
backend message — and the (spec-modelled) classifier step is bypassed with
the supplied intent trusted as-is. -/
theorem sendMessage_intent_clean_text (text : String) (codeFiles : List CodeFile)
    (history : List HistMsg) (library : String) (classifierOutput : String)
    (h : text ≠ "") :
    (sendMessagePayload text codeFiles history library).intent = some text ∧
    (sendMessagePayload text codeFiles history library).message = buildBackendText text codeFiles ∧
    text ≠ buildBackendText text codeFiles ∧
    resolveIntent (sendMessagePayload text codeFiles history library).intent classifierOutput =
      (text, false) := by
  have hint : (sendMessagePayload text codeFiles history library).intent = some text := by
    simp [sendMessagePayload, buildPayload, h]
  refine ⟨hint, rfl, ?_, by rw [hint]; rfl⟩
  intro hcontra
  have := text_ne_buildBackendText text codeFiles
  rw [← hcontra] at this
  omega

theorem sendMessage_intent_clean_text_witness :
    (sendMessagePayload "generate a button" [] [] "untitledui").intent =
      some "generate a button" ∧
    (sendMessagePayload "generate a button" [] [] "untitledui").message =
      buildBackendText "generate a button" [] ∧
    "generate a button" ≠ buildBackendText "generate a button" [] ∧
    resolveIntent (sendMessagePayload "generate a button" [] [] "untitledui").intent "chat" =
      ("generate a button", false) :=
  sendMessage_intent_clean_text "generate a button" [] [] "untitledui" "chat" (by decide)

/-! ## History compaction (`trimHistoryContent` and the history built by
`sendMessage`, `chatbot/app.jsx` lines 1181-1234)

`sendMessage` sends the last 20 turns; assistant turns other than the most
recent one are compacted: fenced code blocks are replaced by a marker and
the result truncated to 500 characters plus an ellipsis. -/

/-- The three-backtick fence delimiting a code block. -/
def fenceChars : List Char := "```".toList

/-- Split a character list at the first fence: the part strictly before the
fence and the part strictly after it, or `none` when no fence occurs.  This
is the primitive both the code-block regexes build on. -/
def splitOnFence : List Char → Option (List Char × List Char)
  | [] => none
  | c :: rest =>
    if fenceChars.isPrefixOf (c :: rest) then some ([], rest.drop 2)
    else (splitOnFence rest).map (fun p => (c :: p.1, p.2))

theorem splitOnFence_snd_length_lt :
    ∀ (cs : List Char) (p : List Char × List Char),
      splitOnFence cs = some p → p.2.length < cs.length := by
  intro cs
  induction cs with
  | nil => intro p h; cases h
  | cons c rest ih =>
    intro p h
    simp only [splitOnFence] at h
    split at h
    · cases h
      simp only [List.length_drop, List.length_cons]
      omega
    · rcases hmap : splitOnFence rest with _ | q
      · rw [hmap] at h; cases h
      · rw [hmap] at h
        simp only [Option.map_some'] at h
        cases h
        have := ih q hmap
        simp only [List.length_cons]
        omega

/-- The replacement text for a code block
(`content.replace(/\x60\x60\x60[\s\S]*?\x60\x60\x60/g, '\n[code block omitted]\n')`). -/
def OMITTED : List Char := "\n[code block omitted]\n".toList

/-- Global, non-greedy replacement of every fenced code block: repeatedly
take the leftmost opening fence and the nearest closing fence after it and
replace the whole span; an opening fence with no closing fence matches
nothing and the remainder is kept as is. -/
def replaceCodeBlocks (cs : List Char) : List Char :=
  match h1 : splitOnFence cs with
  | none => cs
  | some (before, afterOpen) =>
    match h2 : splitOnFence afterOpen with
    | none => cs
    | some (_, afterClose) => before ++ OMITTED ++ replaceCodeBlocks afterClose
termination_by cs.length
decreasing_by
  have a1 := splitOnFence_snd_length_lt cs _ h1
  have a2 := splitOnFence_snd_length_lt afterOpen _ h2
  exact Nat.lt_trans a2 a1

/-- `trimHistoryContent` (`chatbot/app.jsx` lines 1181-1187): content at or
under `maxLen` is returned as is (this also covers the code's `!content`
guard, since the empty string has length 0); otherwise code blocks are
replaced and, when still over `maxLen`, the result is cut to `maxLen`
characters plus `'...'`. -/
def trimHistoryContent (content : String) (maxLen : Nat) : String :=
  if content.length ≤ maxLen then content
  else
    let trimmed := String.mk (replaceCodeBlocks content.toList)
    if trimmed.length > maxLen then String.mk (trimmed.toList.take maxLen) ++ "..." else trimmed

theorem trimHistoryContent_length_le (c : String) (h : 500 < c.length) :
    (trimHistoryContent c 500).length ≤ 503 := by
  simp only [trimHistoryContent]
  rw [if_neg (by omega)]
  by_cases hgt : (String.mk (replaceCodeBlocks c.toList)).length > 500
  · rw [if_pos hgt]
    have h1 : ∀ l : List Char, (String.mk l).length = l.length := fun _ => rfl
    rw [String.length_append, h1, List.length_take]
    have h3 : ("..." : String).length = 3 := rfl
    rw [h3]
    omega
  · rw [if_neg hgt]
    omega

/-- Index of the most recent assistant entry, mirroring the backwards
`for` loop over `rawHistory` at `chatbot/app.jsx` lines 1225-1228 (`none`
plays the loop's `-1`). -/
def lastAssistantIdxFrom : Nat → List HistMsg → Option Nat
  | _, [] => none
  | i, m :: rest =>
    match lastAssistantIdxFrom (i + 1) rest with
    | some j => some j
    | none => if m.role = "assistant" then some i else none

def lastAssistantIdx (l : List HistMsg) : Option Nat := lastAssistantIdxFrom 0 l

/-- Index-aware map, for `rawHistory.map((m, i) => ...)`. -/
def mapWithIdx (f : Nat → HistMsg → HistMsg) : Nat → List HistMsg → List HistMsg
  | _, [] => []
  | i, m :: rest => f i m :: mapWithIdx f (i + 1) rest

/-- `rawHistory` at line 1224: prior messages plus the new user turn,
cut to the last 20 entries (`slice(-20)`). -/
def rawHistoryOf (allMsgs : List HistMsg) (visibleText : String) : List HistMsg :=
  (allMsgs ++ [(⟨"user", visibleText⟩ : HistMsg)]).drop ((allMsgs.length + 1) - 20)

/-- The per-entry callback of the `rawHistory.map((m, i) => ...)` call:
assistant entries other than the most recent one are compacted. -/
def compactEntry (lastIdx : Option Nat) (i : Nat) (m : HistMsg) : HistMsg :=
  if m.role = "assistant" ∧ some i ≠ lastIdx then ⟨m.role, trimHistoryContent m.content 500⟩
  else m

/-- The `history` array posted to the backend (lines 1229-1234). -/
def buildHistory (allMsgs : List HistMsg) (visibleText : String) : List HistMsg :=
  let rawHistory := rawHistoryOf allMsgs visibleText
  mapWithIdx (compactEntry (lastAssistantIdx rawHistory)) 0 rawHistory

theorem mapWithIdx_length (f : Nat → HistMsg → HistMsg) :
    ∀ (i : Nat) (l : List HistMsg), (mapWithIdx f i l).length = l.length := by
  intro i l
  induction l generalizing i with
  | nil => rfl
  | cons m rest ih => simp [mapWithIdx, ih]

theorem mapWithIdx_get (f : Nat → HistMsg → HistMsg) :
    ∀ (l : List HistMsg) (i k : Nat) (hk : k < l.length)
      (hk2 : k < (mapWithIdx f i l).length),
      (mapWithIdx f i l).get ⟨k, hk2⟩ = f (i + k) (l.get ⟨k, hk⟩) := by
  intro l
  induction l with
  | nil => intro i k hk; cases hk
  | cons m rest ih =>
    intro i k hk hk2
    cases k with
    | zero => simp [mapWithIdx]
    | succ k0 =>
      have hk0 : k0 < rest.length := by simpa using hk
      have hk02 : k0 < (mapWithIdx f (i + 1) rest).length := by
        rw [mapWithIdx_length]; exact hk0
      have := ih (i + 1) k0 hk0 hk02
      simp only [mapWithIdx, List.get_cons_succ]
      rw [this]
      congr 1
      omega

theorem mapWithIdx_append (f : Nat → HistMsg → HistMsg) :
    ∀ (l₁ l₂ : List HistMsg) (i : Nat),
      mapWithIdx f i (l₁ ++ l₂) = mapWithIdx f i l₁ ++ mapWithIdx f (i + l₁.length) l₂ := by
  intro l₁
  induction l₁ with
  | nil => intro l₂ i; simp [mapWithIdx]
  | cons m rest ih =>
    intro l₂ i
    show f i m :: mapWithIdx f (i + 1) (rest ++ l₂) = _
    rw [ih l₂ (i + 1)]
    show _ = f i m :: mapWithIdx f (i + 1) rest ++ mapWithIdx f (i + (rest.length + 1)) l₂
    rw [show i + (rest.length + 1) = i + 1 + rest.length by omega]
    rfl

theorem lastAssistantIdxFrom_shift :
    ∀ (l : List HistMsg) (i : Nat),
      lastAssistantIdxFrom i l = (lastAssistantIdxFrom 0 l).map (fun j => j + i) := by
  intro l
  induction l with
  | nil => intro i; rfl
  | cons m rest ih =>
    intro i
    simp only [lastAssistantIdxFrom]
    rw [ih (i + 1), ih 1]
    rcases lastAssistantIdxFrom 0 rest with _ | j
    · simp only [Option.map_none']
      by_cases hr : m.role = "assistant"
      · simp [hr]
      · simp [hr]
    · simp only [Option.map_some']
      congr 1
      omega

theorem lastAssistantIdxFrom_none_no_assistant :
    ∀ (l : List HistMsg) (i : Nat), lastAssistantIdxFrom i l = none →
      ∀ m ∈ l, m.role ≠ "assistant" := by
  intro l
  induction l with
  | nil => intro i _ m hm; cases hm
  | cons a rest ih =>
    intro i h m hm
    simp only [lastAssistantIdxFrom] at h
    rcases hrec : lastAssistantIdxFrom (i + 1) rest with _ | j
    · rw [hrec] at h
      rcases List.mem_cons.mp hm with hm | hm
      · subst hm
        intro hrole
        rw [if_pos hrole] at h
        cases h
      · exact ih (i + 1) hrec m hm
    · rw [hrec] at h; cases h

theorem lastAssistantIdx_spec :
    ∀ (l : List HistMsg) (j : Nat), lastAssistantIdx l = some j →
      ∃ hj : j < l.length, (l.get ⟨j, hj⟩).role = "assistant" ∧
        ∀ (k : Nat) (hk : k < l.length), j < k → (l.get ⟨k, hk⟩).role ≠ "assistant" := by
  intro l
  induction l with
  | nil => intro j h; cases h
  | cons m rest ih =>
    intro j h
    simp only [lastAssistantIdx, lastAssistantIdxFrom] at h
    rw [lastAssistantIdxFrom_shift rest 1] at h
    rcases hrec : lastAssistantIdx rest with _ | j0
    · simp only [lastAssistantIdx] at hrec
      rw [hrec] at h
      simp only [Option.map_none'] at h
      by_cases hr : m.role = "assistant"
      · rw [if_pos hr] at h
        cases h
        refine ⟨by simp, hr, ?_⟩
        intro k hk hk0
        cases k with
        | zero => omega
        | succ k0 =>
          have hk0r : k0 < rest.length := by simpa using hk
          simp only [List.get_cons_succ]
          exact lastAssistantIdxFrom_none_no_assistant rest 0 hrec _ (List.get_mem rest k0 hk0r)
      · rw [if_neg hr] at h; cases h
    · simp only [lastAssistantIdx] at hrec
      rw [hrec] at h
      simp only [Option.map_some'] at h
      cases h
      obtain ⟨hj0, hrole, hafter⟩ := ih j0 hrec
      refine ⟨by simpa using Nat.succ_lt_succ hj0, by simpa using hrole, ?_⟩
      intro k hk hklt
      cases k with
      | zero => omega
      | succ k0 =>
        have hk0r : k0 < rest.length := by simpa using hk
        simp only [List.get_cons_succ]
        exact hafter k0 hk0r (by omega)

/-- C8: the history sent to the backend keeps at most the last 20 turns
and ends with the new user turn; roles and relative order are preserved;
every user message and the most recent assistant message are sent verbatim;
every older assistant message is sent as `trimHistoryContent content 500`
(code blocks replaced, cut to 500 characters plus `'...'`), so its length
never exceeds `max original 503`, and any content over 500 characters comes
out at most 503 characters long. -/
theorem buildHistory_compaction (allMsgs : List HistMsg) (visibleText : String) :
    (buildHistory allMsgs visibleText).length ≤ 20 ∧
    (buildHistory allMsgs visibleText).length = (rawHistoryOf allMsgs visibleText).length ∧
    (∃ pre, buildHistory allMsgs visibleText = pre ++ [⟨"user", visibleText⟩]) ∧
    (∀ (i : Nat) (hi : i < (rawHistoryOf allMsgs visibleText).length)
        (hh : i < (buildHistory allMsgs visibleText).length),
      ((buildHistory allMsgs visibleText).get ⟨i, hh⟩).role =
        ((rawHistoryOf allMsgs visibleText).get ⟨i, hi⟩).role ∧
      (((rawHistoryOf allMsgs visibleText).get ⟨i, hi⟩).role ≠ "assistant" →
        (buildHistory allMsgs visibleText).get ⟨i, hh⟩ =
          (rawHistoryOf allMsgs visibleText).get ⟨i, hi⟩) ∧
      (some i = lastAssistantIdx (rawHistoryOf allMsgs visibleText) →
        (buildHistory allMsgs visibleText).get ⟨i, hh⟩ =
          (rawHistoryOf allMsgs visibleText).get ⟨i, hi⟩) ∧
      (((rawHistoryOf allMsgs visibleText).get ⟨i, hi⟩).role = "assistant" →
        some i ≠ lastAssistantIdx (rawHistoryOf allMsgs visibleText) →
        ((buildHistory allMsgs visibleText).get ⟨i, hh⟩).content =
          trimHistoryContent ((rawHistoryOf allMsgs visibleText).get ⟨i, hi⟩).content 500 ∧
        ((buildHistory allMsgs visibleText).get ⟨i, hh⟩).content.length ≤
          max ((rawHistoryOf allMsgs visibleText).get ⟨i, hi⟩).content.length 503)) ∧
    (∀ j, lastAssistantIdx (rawHistoryOf allMsgs visibleText) = some j →
      ∃ hj : j < (rawHistoryOf allMsgs visibleText).length,
        ((rawHistoryOf allMsgs visibleText).get ⟨j, hj⟩).role = "assistant" ∧
        ∀ (k : Nat) (hk : k < (rawHistoryOf allMsgs visibleText).length), j < k →
          ((rawHistoryOf allMsgs visibleText).get ⟨k, hk⟩).role ≠ "assistant") := by
  have hraw_len : (rawHistoryOf allMsgs visibleText).length =
      (allMsgs.length + 1) - ((allMsgs.length + 1) - 20) := by
    simp [rawHistoryOf]
  have hlen : (buildHistory allMsgs visibleText).length =
      (rawHistoryOf allMsgs visibleText).length :=
    mapWithIdx_length (compactEntry (lastAssistantIdx (rawHistoryOf allMsgs visibleText))) 0
      (rawHistoryOf allMsgs visibleText)
  refine ⟨?_, hlen, ?_, ?_, fun j h => lastAssistantIdx_spec _ j h⟩
  · rw [hlen, hraw_len]; omega
  · have hk : (allMsgs.length + 1) - 20 ≤ allMsgs.length := by omega
    have hsplit : rawHistoryOf allMsgs visibleText =
        allMsgs.drop ((allMsgs.length + 1) - 20) ++ [(⟨"user", visibleText⟩ : HistMsg)] := by
      simp only [rawHistoryOf]
      rw [List.drop_append_of_le_length hk]
    have main : ∀ L : Option Nat, ∃ pre,
        mapWithIdx (compactEntry L) 0 (rawHistoryOf allMsgs visibleText) =
          pre ++ [(⟨"user", visibleText⟩ : HistMsg)] := by
      intro L
      rw [hsplit, mapWithIdx_append]
      refine ⟨mapWithIdx (compactEntry L) 0 (allMsgs.drop ((allMsgs.length + 1) - 20)), ?_⟩
      congr 1
    exact main (lastAssistantIdx (rawHistoryOf allMsgs visibleText))
  · intro i hi hh
    have hh2 : i < (mapWithIdx (compactEntry (lastAssistantIdx (rawHistoryOf allMsgs visibleText)))
        0 (rawHistoryOf allMsgs visibleText)).length := hh
    have key : (buildHistory allMsgs visibleText).get ⟨i, hh⟩ =
        compactEntry (lastAssistantIdx (rawHistoryOf allMsgs visibleText)) i
          ((rawHistoryOf allMsgs visibleText).get ⟨i, hi⟩) := by
      have h0 := mapWithIdx_get (compactEntry (lastAssistantIdx (rawHistoryOf allMsgs visibleText)))
        (rawHistoryOf allMsgs visibleText) 0 i hi hh2
      rw [Nat.zero_add] at h0
      exact h0
    set m := (rawHistoryOf allMsgs visibleText).get ⟨i, hi⟩ with hm
    refine ⟨?_, ?_, ?_, ?_⟩
    · rw [key]
      simp only [compactEntry]
      split
      · rfl
      · rfl
    · intro hrole
      rw [key]
      simp only [compactEntry]
      rw [if_neg (fun hc => hrole hc.1)]
    · intro hidx
      rw [key]
      simp only [compactEntry]
      rw [if_neg (fun hc => hc.2 hidx)]
    · intro hrole hidx
      rw [key]
      simp only [compactEntry]
      rw [if_pos ⟨hrole, hidx⟩]
      refine ⟨rfl, ?_⟩
      show (trimHistoryContent m.content 500).length ≤ max m.content.length 503
      by_cases hlong : m.content.length ≤ 500
      · have heq : trimHistoryContent m.content 500 = m.content := by
          simp only [trimHistoryContent]
          rw [if_pos hlong]
        rw [heq]
        exact le_max_left _ _
      · have hb := trimHistoryContent_length_le m.content (by omega)
        have := le_max_right m.content.length 503
        omega

theorem buildHistory_compaction_witness :
    ∃ hj : 1 < (rawHistoryOf [⟨"user", "make a card"⟩, ⟨"assistant", "done"⟩] "thanks").length,
      ((rawHistoryOf [⟨"user", "make a card"⟩, ⟨"assistant", "done"⟩] "thanks").get
          ⟨1, hj⟩).role = "assistant" ∧
      ∀ (k : Nat)
        (hk : k < (rawHistoryOf [⟨"user", "make a card"⟩, ⟨"assistant", "done"⟩] "thanks").length),
        1 < k →
        ((rawHistoryOf [⟨"user", "make a card"⟩, ⟨"assistant", "done"⟩] "thanks").get
            ⟨k, hk⟩).role ≠ "assistant" :=
  (buildHistory_compaction [⟨"user", "make a card"⟩, ⟨"assistant", "done"⟩] "thanks").2.2.2.2
    1 (by decide)

/-! ## Code extraction (`extractBestRunnableCodeBlock` /
`extractAllRunnableCodeBlocks`, `chatbot/app.jsx` lines 38-74)

Both functions scan the text with the global regex
`/\x60\x60\x60(?:jsx|javascript|js|tsx|typescript|html)?\s*\n([\s\S]*?)\x60\x60\x60/g`,
trim each capture, drop captures under 30 characters, and either score the
candidates and pick the best or keep those with both a `root.render` call
and a component definition. -/

/-- JavaScript `\s`: the whitespace class used by the extraction regexes
(space, tab, newline, carriage return, vertical tab, form feed,
non-breaking space). -/
def isSpaceJS (c : Char) : Bool :=
  c = ' ' || c = '\t' || c = '\n' || c = '\r' || c = '\x0b' || c = '\x0c' || c = ' '

/-- JavaScript `String.prototype.trim`. -/
def jsTrim (s : String) : String :=
  String.mk (((s.toList.dropWhile isSpaceJS).reverse.dropWhile isSpaceJS).reverse)

/-- The alternatives of `(?:jsx|javascript|js|tsx|typescript|html)?` in the
regex engine's trial order, the empty (group skipped) option last. -/
def langAlternatives : List (List Char) :=
  ["jsx".toList, "javascript".toList, "js".toList, "tsx".toList, "typescript".toList,
    "html".toList, ([] : List Char)]

/-- Position of the last newline in a character list, if any. -/
def lastNewlinePos : List Char → Option Nat
  | [] => none
  | c :: rest =>
    match lastNewlinePos rest with
    | some j => some (j + 1)
    | none => if c = '\n' then some 0 else none

/-- Match `\s*\n` with backtracking: the greedy `\s*` backtracks until the
mandatory `\n` matches, so the match ends at the last newline of the
whitespace run; returns the characters after that newline, or `none` when
the run contains no newline. -/
def afterWsNewline (r : List Char) : Option (List Char) :=
  match lastNewlinePos (r.takeWhile isSpaceJS) with
  | none => none
  | some k => some (r.drop (k + 1))

/-- Try one language alternative at the current position: the literal word,
then `\s*\n`, then the lazy capture `([\s\S]*?)` up to the first closing
fence.  `none` when any part fails (the engine backtracks to the next
alternative). -/
def tryLang (lang cs : List Char) : Option (List Char × List Char) :=
  if lang.isPrefixOf cs then
    match afterWsNewline (cs.drop lang.length) with
    | none => none
    | some body => splitOnFence body
  else none

def tryLangs : List (List Char) → List Char → Option (List Char × List Char)
  | [], _ => none
  | lang :: more, cs =>
    match tryLang lang cs with
    | some r => some r
    | none => tryLangs more cs

/-- Match the block regex anchored at the current position: the opening
fence, then the language alternatives in order.  On success returns the
capture and the characters after the whole match. -/
def matchFenceAt (cs : List Char) : Option (List Char × List Char) :=
  if fenceChars.isPrefixOf cs then tryLangs langAlternatives (cs.drop 3) else none

/-- `re.exec`: advance one character at a time until the regex matches. -/
def findFenceMatch : List Char → Option (List Char × List Char)
  | [] => none
  | c :: rest =>
    match matchFenceAt (c :: rest) with
    | some r => some r
    | none => findFenceMatch rest

/-- All captures of the global regex, left to right, resuming after each
match (the `while ((m = re.exec(text)) !== null)` loop).  Fuel-driven so
the definition evaluates by kernel reduction; every match consumes at least
one character, so fuel `length + 1` is never exhausted. -/
def scanBlocksAux : Nat → List Char → List String
  | 0, _ => []
  | fuel + 1, cs =>
    match findFenceMatch cs with
    | none => []
    | some (cap, rest) => String.mk cap :: scanBlocksAux fuel rest

/-- The trimmed capture of every fenced code block, in order
(`m[1].trim()` per match). -/
def extractBlocks (text : String) : List String :=
  (scanBlocksAux (text.toList.length + 1) text.toList).map jsTrim

/-- Substring occurrence test. -/
def containsSeq (pat : List Char) : List Char → Bool
  | [] => pat.isPrefixOf ([] : List Char)
  | c :: rest => pat.isPrefixOf (c :: rest) || containsSeq pat rest

/-- `/root\.render/.test(code)`. -/
def hasRootRender (code : String) : Bool :=
  containsSeq "root.render".toList code.toList

def isUpperAZ (c : Char) : Bool := 'A' ≤ c && c ≤ 'Z'

/-- JavaScript `\w`. -/
def isWordChar (c : Char) : Bool :=
  ('a' ≤ c && c ≤ 'z') || ('A' ≤ c && c ≤ 'Z') || ('0' ≤ c && c ≤ '9') || c = '_'

def headIs (p : Char → Bool) : List Char → Bool
  | [] => false
  | c :: _ => p c

/-- `function\s+[A-Z]` anchored at the current position: the literal word,
one or more whitespace characters, then an upper-case letter. -/
def matchFunctionAt (cs : List Char) : Bool :=
  "function".toList.isPrefixOf cs &&
    (let r := cs.drop 8
     let w := r.takeWhile isSpaceJS
     !w.isEmpty && headIs isUpperAZ (r.drop w.length))

/-- `const\s+[A-Z]\w*\s*=` anchored at the current position. -/
def matchConstAt (cs : List Char) : Bool :=
  "const".toList.isPrefixOf cs &&
    (let r := cs.drop 5
     let w := r.takeWhile isSpaceJS
     !w.isEmpty && headIs isUpperAZ (r.drop w.length) &&
       (let after := r.drop (w.length + 1)
        let a := after.takeWhile isWordChar
        let b := (after.drop a.length).takeWhile isSpaceJS
        headIs (fun c => c = '=') ((after.drop a.length).drop b.length)))

def hasComponentAux : List Char → Bool
  | [] => false
  | c :: rest => matchFunctionAt (c :: rest) || matchConstAt (c :: rest) || hasComponentAux rest

/-- `/function\s+[A-Z]|const\s+[A-Z]\w*\s*=/.test(code)`. -/
def hasComponent (code : String) : Bool := hasComponentAux code.toList

/-- `className=|className\s*=|<\/?\w+` anchored at the current position. -/
def matchJSXAt (cs : List Char) : Bool :=
  "className=".toList.isPrefixOf cs ||
    ("className".toList.isPrefixOf cs &&
      (let r := cs.drop 9
       let b := r.takeWhile isSpaceJS
       headIs (fun c => c = '=') (r.drop b.length))) ||
    (headIs (fun c => c = '<') cs &&
      (headIs isWordChar (cs.drop 1) ||
        (headIs (fun c => c = '/') (cs.drop 1) && headIs isWordChar (cs.drop 2))))

def hasJSXAux : List Char → Bool
  | [] => false
  | c :: rest => matchJSXAt (c :: rest) || hasJSXAux rest

/-- `/className=|className\s*=|<\/?\w+/.test(code)`. -/
def hasJSX (code : String) : Bool := hasJSXAux code.toList

/-- The score of a candidate block (`chatbot/app.jsx` lines 48-53). -/
def scoreOf (code : String) : Nat :=
  code.length
    + (if hasRootRender code then 50000 else 0)
    + (if hasComponent code then 30000 else 0)
    + (if hasRootRender code && hasComponent code then 20000 else 0)
    + (if hasJSX code then 5000 else 0)

/-- An entry of the `blocks` array in `extractBestRunnableCodeBlock`. -/
structure ScoredBlock where
  code : String
  score : Nat
  rootRender : Bool
  component : Bool
deriving DecidableEq, Repr

/-- One comparison step of picking the best block. -/
def argmaxStep (acc : Option ScoredBlock) (b : ScoredBlock) : Option ScoredBlock :=
  match acc with
  | none => some b
  | some a => if b.score > a.score then some b else acc

/-- First block attaining the maximal score.  This is exactly what the
stable descending sort `blocks.sort((a, b) => b.score - a.score)` followed
by `blocks[0]` yields (ties keep the original order, so the earliest
maximal block comes first). -/
def argmaxFirst (l : List ScoredBlock) : Option ScoredBlock := l.foldl argmaxStep none

/-- `extractBestRunnableCodeBlock` (lines 38-59): collect trimmed captures
of length at least 30, score them, return the best or `null`. -/
def extractBestRunnableCodeBlock (text : String) : Option String :=
  (argmaxFirst ((extractBlocks text).filterMap (fun code =>
      if code.length < 30 then none
      else some ⟨code, scoreOf code, hasRootRender code, hasComponent code⟩))).map
    ScoredBlock.code

/-- `extractAllRunnableCodeBlocks` (lines 62-74): keep trimmed captures of
length at least 30 that have both a `root.render` call and a component
definition. -/
def extractAllRunnableCodeBlocks (text : String) : List String :=
  (extractBlocks text).filterMap (fun code =>
    if code.length < 30 then none
    else if hasRootRender code && hasComponent code then some code else none)

theorem foldl_argmaxStep_from_some :
    ∀ (tl : List ScoredBlock) (a : ScoredBlock),
      List.foldl argmaxStep (some a) tl ≠ none := by
  intro tl
  induction tl with
  | nil => intro a h; cases h
  | cons b tl2 ih =>
    intro a
    simp only [List.foldl_cons, argmaxStep]
    by_cases hgt : b.score > a.score
    · rw [if_pos hgt]; exact ih b
    · rw [if_neg hgt]; exact ih a

theorem argmaxFirst_none_iff (l : List ScoredBlock) :
    argmaxFirst l = none ↔ l = [] := by
  cases l with
  | nil => simp [argmaxFirst]
  | cons b tl =>
    constructor
    · intro h
      exact absurd h (by simpa [argmaxFirst, List.foldl_cons, argmaxStep] using
        foldl_argmaxStep_from_some tl b)
    · intro h; cases h

theorem foldl_argmaxStep_spec :
    ∀ (l : List ScoredBlock) (acc : Option ScoredBlock) (sb : ScoredBlock),
      List.foldl argmaxStep acc l = some sb →
      (sb ∈ l ∨ acc = some sb) ∧ (∀ b ∈ l, b.score ≤ sb.score) ∧
        (∀ a, acc = some a → a.score ≤ sb.score) := by
  intro l
  induction l with
  | nil =>
    intro acc sb h
    simp only [List.foldl_nil] at h
    refine ⟨Or.inr h, by simp, ?_⟩
    intro a ha
    rw [ha] at h
    injection h with h
    rw [h]
  | cons b tl ih =>
    intro acc sb h
    simp only [List.foldl_cons] at h
    cases acc with
    | none =>
      simp only [argmaxStep] at h
      obtain ⟨h1, h2, h3⟩ := ih (some b) sb h
      refine ⟨?_, ?_, ?_⟩
      · rcases h1 with h1 | h1
        · exact Or.inl (List.mem_cons_of_mem _ h1)
        · injection h1 with h1
          exact Or.inl (h1 ▸ List.mem_cons_self _ _)
      · intro x hx
        rcases List.mem_cons.mp hx with hx | hx
        · subst hx; exact h3 x rfl
        · exact h2 x hx
      · intro a ha; cases ha
    | some a0 =>
      simp only [argmaxStep] at h
      by_cases hgt : b.score > a0.score
      · rw [if_pos hgt] at h
        obtain ⟨h1, h2, h3⟩ := ih (some b) sb h
        have hb : b.score ≤ sb.score := h3 b rfl
        refine ⟨?_, ?_, ?_⟩
        · rcases h1 with h1 | h1
          · exact Or.inl (List.mem_cons_of_mem _ h1)
          · injection h1 with h1
            exact Or.inl (h1 ▸ List.mem_cons_self _ _)
        · intro x hx
          rcases List.mem_cons.mp hx with hx | hx
          · subst hx; exact hb
          · exact h2 x hx
        · intro a ha
          injection ha with ha
          subst ha
          omega
      · rw [if_neg hgt] at h
        obtain ⟨h1, h2, h3⟩ := ih (some a0) sb h
        have ha0 : a0.score ≤ sb.score := h3 a0 rfl
        refine ⟨?_, ?_, ?_⟩
        · rcases h1 with h1 | h1
          · exact Or.inl (List.mem_cons_of_mem _ h1)
          · exact Or.inr h1
        · intro x hx
          rcases List.mem_cons.mp hx with hx | hx
          · subst hx; omega
          · exact h2 x hx
        · intro a ha
          injection ha with ha
          subst ha
          exact ha0

theorem argmaxFirst_spec (l : List ScoredBlock) (sb : ScoredBlock)
    (h : argmaxFirst l = some sb) :
    sb ∈ l ∧ ∀ b ∈ l, b.score ≤ sb.score := by
  obtain ⟨h1, h2, _⟩ := foldl_argmaxStep_spec l none sb h
  rcases h1 with h1 | h1
  · exact ⟨h1, h2⟩
  · cases h1

/-- C9: code-extraction soundness.  Every string returned by
`extractAllRunnableCodeBlocks` is a trimmed block of length at least 30
containing a `root.render` call and a capitalized component definition;
`extractBestRunnableCodeBlock` returns `null` exactly when no fenced block
has trimmed length at least 30, and otherwise returns the trimmed content
of a candidate block of maximal score. -/
theorem code_extraction_sound (text : String) :
    (∀ s ∈ extractAllRunnableCodeBlocks text,
      30 ≤ s.length ∧ hasRootRender s = true ∧ hasComponent s = true) ∧
    (extractBestRunnableCodeBlock text = none ↔ ∀ s ∈ extractBlocks text, s.length < 30) ∧
    (∀ s, extractBestRunnableCodeBlock text = some s →
      s ∈ extractBlocks text ∧ 30 ≤ s.length ∧
        ∀ b ∈ extractBlocks text, 30 ≤ b.length → scoreOf b ≤ scoreOf s) := by
  refine ⟨?_, ?_, ?_⟩
  · intro s hs
    obtain ⟨a, ha, hf⟩ := List.mem_filterMap.mp hs
    by_cases h30 : a.length < 30
    · rw [if_pos h30] at hf; cases hf
    · rw [if_neg h30] at hf
      by_cases hrc : (hasRootRender a && hasComponent a) = true
      · rw [if_pos hrc] at hf
        injection hf with hf
        subst hf
        have := Bool.and_eq_true_iff.mp hrc
        exact ⟨by omega, this.1, this.2⟩
      · rw [if_neg hrc] at hf; cases hf
  · simp only [extractBestRunnableCodeBlock, Option.map_eq_none', argmaxFirst_none_iff,
      List.filterMap_eq_nil]
    constructor
    · intro h s hs
      have := h s hs
      by_contra h30
      rw [if_neg (by omega)] at this
      cases this
    · intro h s hs
      rw [if_pos (h s hs)]
  · intro s hbest
    simp only [extractBestRunnableCodeBlock, Option.map_eq_some'] at hbest
    obtain ⟨sb, hsb, hcode⟩ := hbest
    obtain ⟨hmem, hmax⟩ := argmaxFirst_spec _ sb hsb
    obtain ⟨a, ha, hf⟩ := List.mem_filterMap.mp hmem
    by_cases h30 : a.length < 30
    · rw [if_pos h30] at hf; cases hf
    · rw [if_neg h30] at hf
      injection hf with hf
      subst hf
      subst hcode
      refine ⟨ha, by show 30 ≤ a.length; omega, ?_⟩
      intro b hb hb30
      have hbmem : (⟨b, scoreOf b, hasRootRender b, hasComponent b⟩ : ScoredBlock) ∈
          (extractBlocks text).filterMap (fun code =>
            if code.length < 30 then none
            else some ⟨code, scoreOf code, hasRootRender code, hasComponent code⟩) := by
        apply List.mem_filterMap.mpr
        exact ⟨b, hb, by rw [if_neg (by omega)]⟩
      exact hmax _ hbmem

/-- A small assistant reply containing one runnable fenced block. -/
def sampleChatReply : String :=
  "Sure!\n```jsx\nfunction Demo() stuff stuff stuff\nroot.render(React.createElement(Demo))\n```\nDone."

/-- The trimmed content of the block in `sampleChatReply`. -/
def sampleBlock : String :=
  "function Demo() stuff stuff stuff\nroot.render(React.createElement(Demo))"

set_option maxRecDepth 100000 in
theorem code_extraction_sound_witness :
    sampleBlock ∈ extractBlocks sampleChatReply ∧ 30 ≤ sampleBlock.length ∧
      ∀ b ∈ extractBlocks sampleChatReply, 30 ≤ b.length → scoreOf b ≤ scoreOf sampleBlock :=
  (code_extraction_sound sampleChatReply).2.2 sampleBlock (by decide)

/-! ## Conversation titles (`generateTitle`, `chatbot/app.jsx` lines 17-20)

`generateTitle` replaces newlines by spaces, collapses whitespace runs to
single spaces, trims, and cuts to 50 characters plus an ellipsis. -/

/-- The `.replace(/\s+/g, ' ')` pass: each maximal whitespace run becomes
one space.  The flag records whether the previous character was part of a
run already replaced. -/
def collapseWsAux : Bool → List Char → List Char
  | _, [] => []
  | inRun, c :: rest =>
    if isSpaceJS c then
      if inRun then collapseWsAux true rest else ' ' :: collapseWsAux true rest
    else c :: collapseWsAux false rest

/-- `message.replace(/\n/g, ' ').replace(/\s+/g, ' ').trim()`. -/
def cleanTitle (message : String) : String :=
  jsTrim (String.mk (collapseWsAux false
    (message.toList.map (fun c => if c = '\n' then ' ' else c))))

/-- `generateTitle`: the cleaned message, cut to 50 characters plus an
ellipsis when longer. -/
def generateTitle (message : String) : String :=
  if (cleanTitle message).length > 50 then
    String.mk ((cleanTitle message).toList.take 50) ++ "…"
  else cleanTitle message

/-- No two adjacent whitespace characters. -/
def noWsPair (a b : Char) : Prop := ¬(isSpaceJS a = true ∧ isSpaceJS b = true)

theorem noWsPair_symm {a b : Char} (h : noWsPair a b) : noWsPair b a := by
  unfold noWsPair at *
  tauto

theorem collapseWsAux_chain :
    ∀ (cs : List Char) (b : Bool),
      List.Chain' noWsPair (collapseWsAux b cs) ∧
        (∀ c ∈ (collapseWsAux true cs).head?, isSpaceJS c = false) := by
  intro cs
  induction cs with
  | nil =>
    intro b
    refine ⟨List.chain'_nil, ?_⟩
    intro c hc
    cases hc
  | cons c rest ih =>
    intro b
    by_cases hws : isSpaceJS c = true
    · have htrue : collapseWsAux true (c :: rest) = collapseWsAux true rest := by
        simp [collapseWsAux, hws]
      have hfalse : collapseWsAux false (c :: rest) = ' ' :: collapseWsAux true rest := by
        simp [collapseWsAux, hws]
      cases b with
      | true =>
        rw [htrue]
        exact ⟨(ih true).1, fun d hd => (ih true).2 d (htrue ▸ hd)⟩
      | false =>
        rw [hfalse]
        refine ⟨?_, fun d hd => (ih true).2 d (htrue ▸ hd)⟩
        rw [List.chain'_cons']
        refine ⟨?_, (ih true).1⟩
        intro y hy
        have := (ih true).2 y hy
        unfold noWsPair
        simp [this]
    · have hb : collapseWsAux b (c :: rest) = c :: collapseWsAux false rest := by
        cases b <;> simp [collapseWsAux, hws]
      have hbt : collapseWsAux true (c :: rest) = c :: collapseWsAux false rest := by
        simp [collapseWsAux, hws]
      constructor
      · rw [hb, List.chain'_cons']
        refine ⟨?_, (ih false).1⟩
        intro y hy
        unfold noWsPair
        simp [hws]
      · intro d hd
        rw [hbt] at hd
        simp only [List.head?_cons, Option.mem_def, Option.some.injEq] at hd
        subst hd
        simpa using hws

theorem chain_flip_of_chain {l : List Char} (h : List.Chain' noWsPair l) :
    List.Chain' (flip noWsPair) l :=
  h.imp (fun _ _ hab => noWsPair_symm hab)

theorem jsTrim_chain (s : String) (h : List.Chain' noWsPair s.toList) :
    List.Chain' noWsPair (jsTrim s).toList := by
  have h1 : List.Chain' noWsPair (s.toList.dropWhile isSpaceJS) :=
    h.suffix (List.dropWhile_suffix _)
  have h2 : List.Chain' noWsPair (s.toList.dropWhile isSpaceJS).reverse :=
    List.chain'_reverse.mpr (chain_flip_of_chain h1)
  have h3 : List.Chain' noWsPair ((s.toList.dropWhile isSpaceJS).reverse.dropWhile isSpaceJS) :=
    h2.suffix (List.dropWhile_suffix _)
  have h4 : List.Chain' noWsPair
      ((s.toList.dropWhile isSpaceJS).reverse.dropWhile isSpaceJS).reverse :=
    List.chain'_reverse.mpr (chain_flip_of_chain h3)
  exact h4

theorem jsTrim_subset (s : String) (c : Char) (h : c ∈ (jsTrim s).toList) :
    c ∈ s.toList := by
  have h1 : c ∈ (s.toList.dropWhile isSpaceJS).reverse.dropWhile isSpaceJS := by
    simpa [jsTrim] using List.mem_reverse.mp h
  have h2 : c ∈ (s.toList.dropWhile isSpaceJS).reverse :=
    (List.dropWhile_sublist _).subset h1
  have h3 : c ∈ s.toList.dropWhile isSpaceJS := List.mem_reverse.mp h2
  exact (List.dropWhile_sublist _).subset h3

theorem cleanTitle_no_newline (m : String) (c : Char) (h : c ∈ (cleanTitle m).toList) :
    c ≠ '\n' := by
  have h1 : c ∈ collapseWsAux false
      (m.toList.map (fun c => if c = '\n' then ' ' else c)) := by
    simpa using jsTrim_subset _ c h
  have hmem : ∀ (b : Bool) (cs : List Char), c ∈ collapseWsAux b cs → c = ' ' ∨ c ∈ cs := by
    intro b cs
    induction cs generalizing b with
    | nil => intro hc; cases hc
    | cons d rest ih =>
      intro hc
      by_cases hws : isSpaceJS d = true
      · cases b with
        | true =>
          have : c ∈ collapseWsAux true rest := by simpa [collapseWsAux, hws] using hc
          rcases ih true this with h | h
          · exact Or.inl h
          · exact Or.inr (List.mem_cons_of_mem _ h)
        | false =>
          have : c ∈ ' ' :: collapseWsAux true rest := by simpa [collapseWsAux, hws] using hc
          rcases List.mem_cons.mp this with h | h
          · exact Or.inl h
          · rcases ih true h with h | h
            · exact Or.inl h
            · exact Or.inr (List.mem_cons_of_mem _ h)
      · have : c ∈ d :: collapseWsAux false rest := by
          cases b <;> simpa [collapseWsAux, hws] using hc
        rcases List.mem_cons.mp this with h | h
        · exact Or.inr (h ▸ List.mem_cons_self _ _)
        · rcases ih false h with h | h
          · exact Or.inl h
          · exact Or.inr (List.mem_cons_of_mem _ h)
  rcases hmem false _ h1 with h2 | h2
  · subst h2; decide
  · obtain ⟨d, _, hd⟩ := List.mem_map.mp h2
    intro hcontra
    subst hcontra
    by_cases hdn : d = '\n'
    · rw [if_pos hdn] at hd; cases hd
    · rw [if_neg hdn] at hd; exact hdn hd

theorem cleanTitle_chain (m : String) :
    List.Chain' noWsPair (cleanTitle m).toList := by
  apply jsTrim_chain
  exact (collapseWsAux_chain _ false).1

/-- C10: conversation titles are bounded and single-line.  `generateTitle`
always returns at most 51 characters (50 of the cleaned message plus one
ellipsis), the result contains no newline, no two adjacent characters of
the result are both whitespace (runs were collapsed), and a message whose
cleaned form is at most 50 characters is returned unchanged after
cleaning. -/
theorem generateTitle_bounded_single_line (m : String) :
    (generateTitle m).length ≤ 51 ∧
    (∀ c ∈ (generateTitle m).toList, c ≠ '\n') ∧
    List.Chain' noWsPair (generateTitle m).toList ∧
    ((cleanTitle m).length ≤ 50 → generateTitle m = cleanTitle m) := by
  have hmklen : ∀ l : List Char, (String.mk l).length = l.length := fun _ => rfl
  have htolist : ∀ l : List Char, (String.mk l).toList = l := fun _ => rfl
  by_cases hlong : (cleanTitle m).length > 50
  · have hgen : generateTitle m = String.mk ((cleanTitle m).toList.take 50) ++ "…" := by
      simp only [generateTitle]
      rw [if_pos hlong]
    have hdata : (generateTitle m).toList = (cleanTitle m).toList.take 50 ++ ['…'] := by
      rw [hgen]; rfl
    refine ⟨?_, ?_, ?_, ?_⟩
    · have : (generateTitle m).length = ((cleanTitle m).toList.take 50).length + 1 := by
        rw [hgen, String.length_append, hmklen]; rfl
      rw [this, List.length_take]
      omega
    · intro c hc
      rw [hdata] at hc
      rcases List.mem_append.mp hc with hc | hc
      · exact cleanTitle_no_newline m c ((List.take_sublist _ _).subset hc)
      · simp only [List.mem_singleton] at hc
        subst hc; decide
    · rw [hdata]
      rw [List.chain'_append]
      have htake : List.Chain' noWsPair ((cleanTitle m).toList.take 50) := by
        have hc := cleanTitle_chain m
        rw [← List.take_append_drop 50 (cleanTitle m).toList] at hc
        exact (List.chain'_append.mp hc).1
      refine ⟨htake, List.chain'_singleton _, ?_⟩
      intro x _ y hy
      simp only [List.head?_cons, Option.mem_def, Option.some.injEq] at hy
      subst hy
      unfold noWsPair
      intro hcontra
      exact absurd hcontra.2 (by decide)
    · intro h; omega
  · have hgen : generateTitle m = cleanTitle m := by
      simp only [generateTitle]
      rw [if_neg hlong]
    refine ⟨?_, ?_, ?_, fun _ => hgen⟩
    · rw [hgen]; omega
    · intro c hc
      rw [hgen] at hc
      exact cleanTitle_no_newline m c hc
    · rw [hgen]
      exact cleanTitle_chain m

theorem generateTitle_bounded_single_line_witness :
    generateTitle "hi\nthere   friend" = cleanTitle "hi\nthere   friend" ∧
      cleanTitle "hi\nthere   friend" = "hi there friend" :=
  ⟨(generateTitle_bounded_single_line "hi\nthere   friend").2.2.2 (by decide), by decide⟩

/-! ## Pipeline controller retry loop (spec-modelled)

The backend pipeline controller (`agent/orchestrator.py`) is not under
`src/`; `src/PROJECT_CONTEXT.md` documents its state as holding
`"retry_count": 0` (max 2) and its QA rule as "FAIL triggers retry (max 2
attempts)". -/

/-- Modelled from the spec: the hard retry ceiling of the Pipeline
Controller (spec §4.6, "The retry ceiling (2) is a hard invariant"). -/
def RETRY_CEILING : Nat := 2

/-- Modelled from the spec: the retry-counter values observed in
`PipelineState` at successive Evaluate visits, one verdict per visit,
starting from counter `r`.  Per spec §4.6: `Evaluate → Respond` when the
verdict passes or the retry budget is exhausted; `Evaluate → Generate`
with the counter incremented otherwise (`agent/orchestrator.py` is not in
the source tree). -/
def observeRetries : List Bool → Nat → List Nat
  | [], _ => []
  | pass :: rest, r =>
    if pass = true ∨ RETRY_CEILING ≤ r then [r]
    else r :: observeRetries rest (r + 1)

theorem observeRetries_aux (vs : List Bool) :
    ∀ r, r ≤ RETRY_CEILING →
      (∀ x ∈ observeRetries vs r, r ≤ x ∧ x ≤ RETRY_CEILING) ∧
      List.Chain' (fun a b => a < b) (observeRetries vs r) ∧
      (observeRetries vs r).length + r ≤ RETRY_CEILING + 1 := by
  induction vs with
  | nil =>
    intro r hr
    refine ⟨by simp [observeRetries], by simp [observeRetries, List.chain'_nil], ?_⟩
    simp only [observeRetries, List.length_nil]
    omega
  | cons pass rest ih =>
    intro r hr
    by_cases hstop : pass = true ∨ RETRY_CEILING ≤ r
    · simp only [observeRetries, if_pos hstop]
      refine ⟨?_, List.chain'_singleton _, by simp; omega⟩
      intro x hx
      simp only [List.mem_singleton] at hx
      subst hx
      exact ⟨le_refl _, hr⟩
    · simp only [observeRetries, if_neg hstop]
      have hlt : r < RETRY_CEILING := by
        rcases not_or.mp hstop with ⟨_, h2⟩
        omega
      obtain ⟨ihm, ihc, ihl⟩ := ih (r + 1) (by omega)
      refine ⟨?_, ?_, ?_⟩
      · intro x hx
        rcases List.mem_cons.mp hx with hx | hx
        · subst hx; exact ⟨le_refl _, by omega⟩
        · have := ihm x hx
          omega
      · rw [List.chain'_cons']
        refine ⟨?_, ihc⟩
        intro y hy
        have hmem : y ∈ observeRetries rest (r + 1) := List.mem_of_mem_head? hy
        have := ihm y hmem
        omega
      · simp only [List.length_cons]
        omega

/-- C2: the retry counter starts at 0, strictly increases along the run,
never exceeds the hard ceiling 2, and at most `RETRY_CEILING + 1 = 3`
Evaluate visits occur — so no run loops from Evaluate back to Generate
more than twice, regardless of the verdicts. -/
theorem retry_counter_bounded (verdicts : List Bool) :
    (∀ hd, (observeRetries verdicts 0).head? = some hd → hd = 0) ∧
    List.Chain' (fun a b => a < b) (observeRetries verdicts 0) ∧
    (∀ x ∈ observeRetries verdicts 0, x ≤ RETRY_CEILING) ∧
    (observeRetries verdicts 0).length ≤ RETRY_CEILING + 1 := by
  obtain ⟨hm, hc, hl⟩ := observeRetries_aux verdicts 0 (by simp [RETRY_CEILING])
  refine ⟨?_, hc, fun x hx => (hm x hx).2, by omega⟩
  intro hd hhd
  cases verdicts with
  | nil => simp [observeRetries] at hhd
  | cons p rest =>
    by_cases hstop : p = true ∨ RETRY_CEILING ≤ 0
    · rw [show observeRetries (p :: rest) 0 = [0] by
        simp only [observeRetries, if_pos hstop]] at hhd
      simp only [List.head?_cons, Option.mem_def, Option.some.injEq] at hhd
      omega
    · rw [show observeRetries (p :: rest) 0 = 0 :: observeRetries rest 1 by
        simp only [observeRetries, if_neg hstop]] at hhd
      simp only [List.head?_cons, Option.mem_def, Option.some.injEq] at hhd
      omega

theorem retry_counter_bounded_witness :
    (2 : Nat) ≤ RETRY_CEILING ∧ observeRetries [false, false, false] 0 = [0, 1, 2] :=
  ⟨(retry_counter_bounded [false, false, false]).2.2.1 2 (by decide), by decide⟩

/-! ## Quality gate verdict (spec-modelled)

The quality gate (`agent/qa.py`) is not under `src/`; `src/PROJECT_CONTEXT.md`
§10 documents deduction-based scoring from 100 and the rule "Verdict: PASS
if score >= 70 and no errors. FAIL triggers retry (max 2 attempts)". -/

/-- Modelled from the spec: one rubric check of the Quality Gate
(`agent/qa.py` is not in the source tree): whether it triggered on the
artifact, its score deduction, whether it is marked a hard fail, and its
finding metadata (category, severity, message). -/
structure QACheck where
  triggered : Bool
  weight : Nat
  hardFail : Bool
  category : String
  severity : String
  message : String
deriving DecidableEq, Repr

/-- Modelled from the spec: the `QualityVerdict` of one evaluation —
numeric score, pass/fail boolean, ordered findings. -/
structure QualityVerdict where
  score : Int
  passed : Bool
  findings : List QACheck
deriving DecidableEq, Repr

/-- The pass threshold (spec §4.5: "pass iff score ≥ 70 ..."). -/
def QA_THRESHOLD : Int := 70

/-- Modelled from the spec: `evaluate(artifact)` over the artifact's rubric
checks.  Scoring starts from 100 and subtracts the weight of every
triggered check; the findings are the triggered checks in order; the
verdict passes iff the score reaches the threshold and no triggered check
is marked a hard fail. -/
def evaluate (checks : List QACheck) : QualityVerdict :=
  let findings := checks.filter (fun c => c.triggered)
  let score : Int := 100 - (findings.map (fun c => (c.weight : Int))).sum
  { score := score
    passed := decide (QA_THRESHOLD ≤ score) && findings.all (fun c => !c.hardFail)
    findings := findings }

/-- C6: the Quality Gate verdict passes if and only if the numeric score is
at least 70 and no finding is marked a hard fail — for every artifact
(list of rubric checks) and every evaluation. -/
theorem qa_verdict_pass_iff (checks : List QACheck) :
    (evaluate checks).passed = true ↔
      QA_THRESHOLD ≤ (evaluate checks).score ∧
        ∀ f ∈ (evaluate checks).findings, f.hardFail = false := by
  simp only [evaluate, Bool.and_eq_true, decide_eq_true_eq, List.all_eq_true,
    Bool.not_eq_true']

theorem qa_verdict_pass_iff_witness :
    QA_THRESHOLD ≤ (evaluate [⟨true, 15, false, "structure", "warning",
        "missing PascalCase component name"⟩]).score ∧
      ∀ f ∈ (evaluate [⟨true, 15, false, "structure", "warning",
        "missing PascalCase component name"⟩]).findings, f.hardFail = false :=
  (qa_verdict_pass_iff _).mp (by decide)

end Milestone1
